import Mathlib

/-!
Verification of the Lotsawa House scraping and conversion pipeline.

The definitions below are shallow embeddings of the Python sources:
`scrap.py` (link collection, content-language classification, download
polling, unique-path resolution, placement, run coordination) and
`json_to_folder.py` (JSON record to per-language text files).
Strings are modelled as `List Char` where character-level structure
matters, and the filesystem as an association list from paths to blobs.
-/

/-! ### Content-language classification (`scrap.py` lines 264-295) -/

/-- State of a document page as observed by the classifier: whether the
current URL contains the source-language path marker, which paragraph
classes are present under the main text element, and the visible text. -/
structure PageState where
  isTibetanPage : Bool
  hasBoClass : Bool
  hasEnClass : Bool
  hasEnTransClass : Bool
  maintext : List Char

/-- Script-based fallback: any character of the visible text lies in the
Tibetan Unicode block U+0F00 to U+0FFF (`scrap.py` line 279). -/
def tibetanScriptPresent (text : List Char) : Bool :=
  text.any (fun ch => decide (0xF00 ≤ ch.toNat) && decide (ch.toNat ≤ 0xFFF))

/-- The decision rule of `scrap.py` lines 285-293: value of
`extra_language_dir` after classification. -/
def classifyContentLanguage (s : PageState) : Option String :=
  if !s.isTibetanPage then
    if !(s.hasBoClass || tibetanScriptPresent s.maintext) then some "English" else none
  else
    if !s.hasEnClass && !s.hasEnTransClass then some "Tibetan" else none

/-! ### JSON record to per-language text files (`json_to_folder.py`) -/

/-- One verse of the JSON record: the `bo` and `en` keys may be absent
(`none`) or present with any string value (including the empty string). -/
structure Verse where
  bo : Option String
  en : Option String

/-- The two titles of the JSON record. -/
structure PrayerTitle where
  bo : String
  en : String

/-- The JSON record shape consumed by `json_to_folder`. -/
structure PrayerData where
  title : PrayerTitle
  text : List Verse

/-- `verse.get(key, "")`: the value when present, otherwise the empty
string default. -/
def verseGet (o : Option String) : String :=
  match o with
  | some s => s
  | none => ""

/-- `get_bo_text`: the Tibetan title followed by every verse whose `bo`
value is truthy (present and non-empty), one per line. -/
def get_bo_text (data : PrayerData) (title : String) : String :=
  data.text.foldl
    (fun acc v => if verseGet v.bo = "" then acc else acc ++ verseGet v.bo ++ "\n")
    (title ++ "\n")

/-- `get_en_text`: the English title followed by every verse whose `en`
value is truthy (present and non-empty), one per line. -/
def get_en_text (data : PrayerData) (title : String) : String :=
  data.text.foldl
    (fun acc v => if verseGet v.en = "" then acc else acc ++ verseGet v.en ++ "\n")
    (title ++ "\n")

/-- `json_to_folder`: the produced folder name and the contents of the
two files it writes (`bo.txt`, `en.txt`). -/
def json_to_folder (data : PrayerData) : String × String × String :=
  (data.title.bo, get_bo_text data data.title.bo, get_en_text data data.title.en)

/-! ### Python string primitives used by the scraper -/

/-- The characters Python's `str.isspace` reports as whitespace
(ASCII whitespace, the field and record separators, and the Unicode
space, line and paragraph separators). -/
def pyIsSpace (c : Char) : Bool :=
  decide (c.toNat ∈ [0x09, 0x0A, 0x0B, 0x0C, 0x0D, 0x1C, 0x1D, 0x1E, 0x1F, 0x20,
    0x85, 0xA0, 0x1680, 0x2000, 0x2001, 0x2002, 0x2003, 0x2004, 0x2005, 0x2006,
    0x2007, 0x2008, 0x2009, 0x200A, 0x2028, 0x2029, 0x202F, 0x205F, 0x3000])

/-- Python's `str.strip()`: remove leading and trailing whitespace. -/
def pyStrip (l : List Char) : List Char :=
  ((l.dropWhile pyIsSpace).reverse.dropWhile pyIsSpace).reverse

/-- The character filter of the topic-label sanitization
(`scrap.py` lines 352-355 and 480-483): keep alphanumerics (Python's
Unicode-aware `str.isalnum`, taken as a parameter), space, hyphen,
underscore, and the Tibetan block U+0F00 to U+0FFF. -/
def keepChar (isAlnum : Char → Bool) (c : Char) : Bool :=
  isAlnum c || c == ' ' || c == '-' || c == '_' ||
    (decide (0xF00 ≤ c.toNat) && decide (c.toNat ≤ 0xFFF))

/-- Topic-label sanitization (`scrap.py` lines 352-358): filter the kept
characters, strip, apply Unicode NFC normalization (`unicodedata.normalize`
is external to the repository and is taken as the parameter `nfc`), and
fall back to "Misc" when the result is empty. -/
def sanitizeLabel (nfc : List Char → List Char) (isAlnum : Char → Bool)
    (label : List Char) : List Char :=
  let cleaned := nfc (pyStrip (label.filter (keepChar isAlnum)))
  if cleaned = [] then "Misc".data else cleaned

/-- Modelled from the documented behaviour of the external
`unicodedata.normalize("NFC", -)` on the Devanagari composition
exclusions: U+0958 (QA) canonically decomposes to U+0915 (KA) followed
by the combining nukta U+093C and, being listed in the composition
exclusion table, is never recomposed; characters other than U+0958 in
the strings this model is applied to are already in normal form and are
returned unchanged.  On strings over the alphabet U+0958, U+0915,
U+093C this is exactly NFC. -/
def nfcDevanagari (s : List Char) : List Char :=
  s.flatMap (fun c => if c = '\u0958' then ['\u0915', '\u093C'] else [c])

/-- Modelled from Python's `str.isalnum` on the code points the
counterexample below touches: the Devanagari letters KA (U+0915) and QA
(U+0958) are alphanumeric (category Lo), while the combining nukta
U+093C (category Mn) is not. -/
def isAlnumDevanagari (c : Char) : Bool :=
  c = '\u0915' || c = '\u0958'

/-! ### Unique-path resolution (`scrap.py` lines 215-225) -/

/-- Decimal rendering of a natural number, as the f-string
interpolation in `_unique_path` writes the counter. -/
def decRepr (n : Nat) : List Char :=
  if _h : n < 10 then [Nat.digitChar n]
  else decRepr (n / 10) ++ [Nat.digitChar (n % 10)]
termination_by n
decreasing_by exact Nat.div_lt_self (by omega) (by omega)

/-- A path in the download tree: the directory components below the
output root, and the file name. -/
structure PathV where
  dir : List (List Char)
  name : List Char
deriving DecidableEq

/-- Index of the last dot of a file name, when it has one. -/
def lastDotIdx (name : List Char) : Option Nat :=
  match name.reverse.findIdx? (fun c => c == '.') with
  | some j => some (name.length - 1 - j)
  | none => none

/-- Where `pathlib` splits a name into stem and extension: at the last
dot when it is neither the first nor the last character, otherwise at
the end of the name (no extension). -/
def splitIdx (name : List Char) : Nat :=
  match lastDotIdx name with
  | some i => if 0 < i ∧ i < name.length - 1 then i else name.length
  | none => name.length

/-- `Path.stem`: the file name without its extension. -/
def nameStem (name : List Char) : List Char := name.take (splitIdx name)

/-- `Path.suffix`: the extension of the file name, dot included. -/
def nameSuffix (name : List Char) : List Char := name.drop (splitIdx name)

/-- The candidate `path.with_name(f"{stem} ({n}){ext}")` tried by
`_unique_path` for counter value `n`. -/
def mkCandidate (p : PathV) (n : Nat) : PathV :=
  { dir := p.dir,
    name := nameStem p.name ++ (' ' :: '(' :: decRepr n) ++ (')' :: nameSuffix p.name) }

/-- The search loop of `_unique_path`, counting up from `n`.  The fuel
argument bounds the search; `existing.length + 1` candidates always
contain a fresh one, so the fuel is never exhausted when called by
`uniquePath`. -/
def uniquePathAux (existing : List PathV) (p : PathV) : Nat → Nat → PathV
  | n, 0 => mkCandidate p n
  | n, fuel+1 =>
    if mkCandidate p n ∈ existing then uniquePathAux existing p (n+1) fuel
    else mkCandidate p n

/-- `_unique_path`: return `p` when it does not exist, otherwise the
first candidate `stem (n)ext`, for n counting up from 1, that does not
exist. -/
def uniquePath (existing : List PathV) (p : PathV) : PathV :=
  if p ∈ existing then uniquePathAux existing p 1 (existing.length + 1) else p

/-! ### Filesystem model -/

/-- One entry of the sink-directory listing at a sampling instant. -/
structure DirEntry where
  name : List Char
  size : Nat
  mtime : Nat
deriving DecidableEq

/-- `p.suffix.lower()` of a listed file. -/
def entrySuffixLower (e : DirEntry) : List Char :=
  (nameSuffix e.name).map Char.toLower

/-- Whether a listed file carries the in-progress marker. -/
def isCrdownloadEntry (e : DirEntry) : Bool :=
  decide (entrySuffixLower e = ".crdownload".data)

/-- Whether a listed file carries the target extension. -/
def isEpubEntry (e : DirEntry) : Bool :=
  decide (entrySuffixLower e = ".epub".data)

/-- The new files of the current listing (set difference against the
before-snapshot of paths) that carry the target extension. -/
def newEpubs (listing : List DirEntry) (before : List (List Char)) : List DirEntry :=
  (listing.filter (fun e => decide (e.name ∉ before))).filter isEpubEntry

/-- Python's `max(epubs, key=mtime)`: the first entry of maximal
modification time. -/
def pickLatest (e : DirEntry) (es : List DirEntry) : DirEntry :=
  es.foldl (fun acc x => if acc.mtime < x.mtime then x else acc) e

/-- `stat().st_size` of the file with the given name at a sampling
instant, or `none` when the file does not exist (`FileNotFoundError`,
and likewise the `exists()` guard). -/
def statAt (listing : List DirEntry) (nm : List Char) : Option Nat :=
  (listing.find? (fun e => decide (e.name = nm))).map DirEntry.size

/-- `_wait_for_download`: sample the sink directory along the trace of
listings, one time step per short sleep; when a new target-extension
file is present with no in-progress marker anywhere in the listing, pick
the most recent one, record its size, and declare completion only if one
step later the file still exists with the same size.  The fuel is the
number of loop iterations the timeout window allows. -/
def waitForDownload (trace : Nat → List DirEntry) (before : List (List Char)) :
    Nat → Nat → Option (List Char)
  | _, 0 => none
  | t, fuel+1 =>
    match newEpubs (trace t) before, (trace t).any isCrdownloadEntry with
    | e :: es, false =>
      let target := pickLatest e es
      match statAt (trace t) target.name with
      | none => waitForDownload trace before (t+1) fuel
      | some size1 =>
        match statAt (trace (t+1)) target.name with
        | some s2 =>
          if s2 = size1 then some target.name
          else waitForDownload trace before (t+2) fuel
        | none => waitForDownload trace before (t+2) fuel
    | [], _ => waitForDownload trace before (t+1) fuel
    | _ :: _, true => waitForDownload trace before (t+1) fuel

/-- The completion condition observed at one sampling instant: some new
target-extension file, and no in-progress marker in the listing. -/
def readyAt (trace : Nat → List DirEntry) (before : List (List Char)) (t : Nat) : Prop :=
  newEpubs (trace t) before ≠ [] ∧ (trace t).any isCrdownloadEntry = false

/-! ### Link collection (`scrap.py` lines 134-159) -/

/-- One expanded accordion section: its summary text and the `href`
attributes of its document-card anchors (`none` when the attribute is
missing). -/
structure PageSection where
  summary : List Char
  anchors : List (Option (List Char))

/-- Record one (url, subheading) observation: a fresh url is appended at
the end (the `order` list), a known url keeps its position and appends
the subheading unless already present. -/
def addLink (acc : List (List Char × List (List Char))) (url : List Char)
    (sub : List Char) : List (List Char × List (List Char)) :=
  match acc with
  | [] => [(url, [sub])]
  | (u, subs) :: rest =>
    if u = url then (u, if sub ∈ subs then subs else subs ++ [sub]) :: rest
    else (u, subs) :: addLink rest url sub

/-- The inner anchor loop of `_collect_text_links`: skip falsy hrefs,
resolve the rest with `urljoin` (the parameter `joinUrl`), and record
each under the section's subheading. -/
def collectAnchors (joinUrl : List Char → List Char)
    (acc : List (List Char × List (List Char))) (sub : List Char) :
    List (Option (List Char)) → List (List Char × List (List Char))
  | [] => acc
  | none :: rest => collectAnchors joinUrl acc sub rest
  | some h :: rest =>
    if h = [] then collectAnchors joinUrl acc sub rest
    else collectAnchors joinUrl (addLink acc (joinUrl h) sub) sub rest

/-- `_collect_text_links`: the grouped list of (url, subheadings) pairs
over all sections, urls in first-seen order. -/
def collectTextLinks (joinUrl : List Char → List Char) (sections : List PageSection) :
    List (List Char × List (List Char)) :=
  sections.foldl (fun acc d => collectAnchors joinUrl acc (pyStrip d.summary) d.anchors) []

/-- The stream of (subheading, url) observations the collection makes,
in order: spec-side view of the two nested loops. -/
def anchorPairs (joinUrl : List Char → List Char) (sub : List Char) :
    List (Option (List Char)) → List (List Char × List Char)
  | [] => []
  | none :: rest => anchorPairs joinUrl sub rest
  | some h :: rest =>
    if h = [] then anchorPairs joinUrl sub rest
    else (sub, joinUrl h) :: anchorPairs joinUrl sub rest

/-- All (subheading, url) observations of a page, section by section. -/
def sectionPairs (joinUrl : List Char → List Char) (sections : List PageSection) :
    List (List Char × List Char) :=
  (sections.map (fun d => anchorPairs joinUrl (pyStrip d.summary) d.anchors)).flatten

/-- Folding the observations through `addLink`: reference form of the
collection loop. -/
def collectPairs (acc : List (List Char × List (List Char))) :
    List (List Char × List Char) → List (List Char × List (List Char))
  | [] => acc
  | (l, u) :: ps => collectPairs (addLink acc u l) ps

/-- Spec-side first-occurrence deduplication: keep each element's first
appearance, in order. -/
def dedupFirst {α : Type} [DecidableEq α] : List α → List α
  | [] => []
  | x :: xs => x :: dedupFirst (xs.filter (fun y => decide (y ≠ x)))
termination_by l => l.length
decreasing_by exact Nat.lt_succ_of_le (List.length_filter_le _ _)

/-- The subheadings under which a url appears, in observation order. -/
def labelsFor (ps : List (List Char × List Char)) (u : List Char) : List (List Char) :=
  (ps.filter (fun pr => decide (pr.2 = u))).map Prod.fst

/-- Modelled from the spec: the collection result as the spec states it
(urls in first-seen order, each once, with its distinct subheadings in
appearance order), to be compared with `collectTextLinks`. -/
def specCollect (ps : List (List Char × List Char)) :
    List (List Char × List (List Char)) :=
  (dedupFirst (ps.map Prod.snd)).map (fun u => (u, dedupFirst (labelsFor ps u)))

/-! ### Run coordinator (`scrap.py` lines 450-505) -/

/-- The counters reported at the end of `scrape_all`. -/
structure RunStats where
  total : Nat
  success : Nat
  failed : Nat
deriving DecidableEq

/-- The document loop of `scrape_all`: a document with no subheading is
counted as failed without calling the orchestrator; otherwise the
orchestrator (the parameter `download`) is called with the url and the
first subheading, and the outcome is counted.  Returns the success and
failed counts and the log of orchestrator invocations, in order. -/
def scrapeLoop (download : List Char → List Char → Option PathV) :
    List (List Char × List (List Char)) → (Nat × Nat) × List (List Char × List Char)
  | [] => ((0, 0), [])
  | (url, subs) :: rest =>
    match subs with
    | [] =>
      let r := scrapeLoop download rest
      ((r.1.1, r.1.2 + 1), r.2)
    | primary :: _ =>
      match download url primary with
      | some _ =>
        let r := scrapeLoop download rest
        ((r.1.1 + 1, r.1.2), (url, primary) :: r.2)
      | none =>
        let r := scrapeLoop download rest
        ((r.1.1, r.1.2 + 1), (url, primary) :: r.2)

/-- `scrape_all`'s accounting: total is the number of collected items,
the loop accumulates the other counters and the invocation log. -/
def scrapeAllStats (download : List Char → List Char → Option PathV)
    (items : List (List Char × List (List Char))) :
    RunStats × List (List Char × List Char) :=
  let r := scrapeLoop download items
  ({ total := items.length, success := r.1.1, failed := r.1.2 }, r.2)

/-! ### Claim theorems -/

/-- Claim C1: the classifier marks a page "English" iff it is not the
source-language page and shows neither the source-language class nor
Tibetan script; "Tibetan" iff it is the source-language page and shows
neither the English class nor the English-transliteration class; and
yields no extra language directory otherwise. -/
theorem classifyContentLanguage_spec (s : PageState) :
    (classifyContentLanguage s = some "English" ↔
      (s.isTibetanPage = false ∧ s.hasBoClass = false ∧
        tibetanScriptPresent s.maintext = false)) ∧
    (classifyContentLanguage s = some "Tibetan" ↔
      (s.isTibetanPage = true ∧ s.hasEnClass = false ∧ s.hasEnTransClass = false)) ∧
    (classifyContentLanguage s = none ↔
      (¬ (s.isTibetanPage = false ∧ s.hasBoClass = false ∧
          tibetanScriptPresent s.maintext = false) ∧
       ¬ (s.isTibetanPage = true ∧ s.hasEnClass = false ∧ s.hasEnTransClass = false))) := by
  obtain ⟨tib, bo, en, entr, txt⟩ := s
  cases tib <;> cases bo <;> cases en <;> cases entr <;>
    cases h : tibetanScriptPresent txt <;>
    simp [classifyContentLanguage, h]

/-- Claim C9: the JSON record with titles T, E and verses
[{bo := a, en := b}, {bo := c}] transforms to folder T with
bo.txt = "T\na\nc\n" and en.txt = "E\nb\n". -/
theorem json_to_folder_scenario :
    json_to_folder
      { title := { bo := "T", en := "E" },
        text := [{ bo := some "a", en := some "b" }, { bo := some "c", en := none }] } =
      ("T", "T\na\nc\n", "E\nb\n") := by
  decide

/-- Claim C10: a verse whose `bo` (respectively `en`) key is present but
maps to the empty string contributes no line to bo.txt (respectively
en.txt) - exactly as if the key were absent. -/
theorem verse_empty_string_as_absent (pre suf : List Verse)
    (b e : Option String) (data : PrayerTitle) (title : String) :
    (get_bo_text { title := data, text := pre ++ { bo := some "", en := e } :: suf } title =
      get_bo_text { title := data, text := pre ++ { bo := none, en := e } :: suf } title) ∧
    (get_en_text { title := data, text := pre ++ { bo := b, en := some "" } :: suf } title =
      get_en_text { title := data, text := pre ++ { bo := b, en := none } :: suf } title) := by
  constructor <;> simp [get_bo_text, get_en_text, List.foldl_append, verseGet]

/-! ### Helper lemmas: stripping -/

/-- Dropping a satisfied prefix twice is the same as once. -/
theorem dropWhile_idem {α : Type} (p : α → Bool) (l : List α) :
    (l.dropWhile p).dropWhile p = l.dropWhile p := by
  cases hA : l.dropWhile p with
  | nil => simp
  | cons a t =>
    have h0 := List.head?_dropWhile_not p l
    rw [hA] at h0
    simp only [List.head?_cons] at h0
    exact List.dropWhile_cons_of_neg (by simp [h0])

/-- A member of the dropWhile remainder is a member of the list. -/
theorem mem_of_mem_dropWhile {α : Type} {p : α → Bool} {l : List α} {a : α}
    (h : a ∈ l.dropWhile p) : a ∈ l := by
  have := List.takeWhile_append_dropWhile p l
  rw [← this]
  exact List.mem_append.mpr (Or.inr h)

/-- Members of the stripped string are members of the original. -/
theorem mem_of_mem_pyStrip {l : List Char} {a : Char} (h : a ∈ pyStrip l) : a ∈ l := by
  unfold pyStrip at h
  rw [List.mem_reverse] at h
  have h1 := mem_of_mem_dropWhile h
  rw [List.mem_reverse] at h1
  exact mem_of_mem_dropWhile h1

/-- Stripping is idempotent. -/
theorem pyStrip_idem (l : List Char) : pyStrip (pyStrip l) = pyStrip l := by
  unfold pyStrip
  have h1 : (((l.dropWhile pyIsSpace).reverse.dropWhile pyIsSpace).reverse).dropWhile pyIsSpace
      = ((l.dropWhile pyIsSpace).reverse.dropWhile pyIsSpace).reverse := by
    cases hBr : ((l.dropWhile pyIsSpace).reverse.dropWhile pyIsSpace).reverse with
    | nil => simp
    | cons c t =>
      have hBne : (l.dropWhile pyIsSpace).reverse.dropWhile pyIsSpace ≠ [] := by
        intro h; rw [h] at hBr; simp at hBr
      have hAne : l.dropWhile pyIsSpace ≠ [] := by
        intro h; rw [h] at hBne; simp at hBne
      obtain ⟨a, ta, hA⟩ := List.exists_cons_of_ne_nil hAne
      have hpa : pyIsSpace a = false := by
        have h0 := List.head?_dropWhile_not pyIsSpace l
        rw [hA] at h0
        simpa using h0
      have hlast : ((l.dropWhile pyIsSpace).reverse.dropWhile pyIsSpace).getLast?
          = (l.dropWhile pyIsSpace).reverse.getLast? := by
        conv_rhs => rw [← List.takeWhile_append_dropWhile pyIsSpace (l.dropWhile pyIsSpace).reverse]
        rw [List.getLast?_append_of_ne_nil _ hBne]
      have hheads : a = c := by
        have e1 : (((l.dropWhile pyIsSpace).reverse.dropWhile pyIsSpace).reverse).head?
            = some c := by rw [hBr]; rfl
        rw [List.head?_reverse, hlast, List.getLast?_reverse, hA] at e1
        simpa using e1
      exact List.dropWhile_cons_of_neg (by rw [← hheads]; simp [hpa])
  rw [h1, List.reverse_reverse, dropWhile_idem]

/-! ### Claim C5 -/

/-- Claim C5, amended: topic-label sanitization is deterministic (a pure
function), and it is idempotent for every label provided the normalizer
(the external `unicodedata.normalize("NFC", -)`, the parameter `nfc`)
is idempotent, preserves kept characters, preserves strippedness and
fixes the ASCII string "Misc" - which NFC does on the alphabet the
scraped labels draw from (ASCII and the Tibetan block).  Unconditional
idempotence is false of the code: see
`sanitizeLabel_not_idempotent_at_u0958`, where NFC turns a kept
character into a kept-plus-dropped pair, so a second pass removes the
combining mark. -/
theorem sanitizeLabel_idempotent (nfc : List Char → List Char) (isAlnum : Char → Bool)
    (hIdem : ∀ s, nfc (nfc s) = nfc s)
    (hKeep : ∀ s, (∀ c ∈ s, keepChar isAlnum c = true) → ∀ c ∈ nfc s, keepChar isAlnum c = true)
    (hStrip : ∀ s, pyStrip s = s → pyStrip (nfc s) = nfc s)
    (hMisc : sanitizeLabel nfc isAlnum ("Misc".data) = "Misc".data)
    (L : List Char) :
    sanitizeLabel nfc isAlnum (sanitizeLabel nfc isAlnum L) = sanitizeLabel nfc isAlnum L := by
  by_cases hN : nfc (pyStrip (L.filter (keepChar isAlnum))) = []
  · have hL : sanitizeLabel nfc isAlnum L = "Misc".data := by
      simp [sanitizeLabel, hN]
    rw [hL, hMisc]
  · have hL : sanitizeLabel nfc isAlnum L
        = nfc (pyStrip (L.filter (keepChar isAlnum))) := by
      simp [sanitizeLabel, hN]
    rw [hL]
    have hkeepS : ∀ c ∈ pyStrip (L.filter (keepChar isAlnum)), keepChar isAlnum c = true :=
      fun c hc => List.of_mem_filter (mem_of_mem_pyStrip hc)
    have hkeepN : ∀ c ∈ nfc (pyStrip (L.filter (keepChar isAlnum))), keepChar isAlnum c = true :=
      hKeep _ hkeepS
    have hfilterN : (nfc (pyStrip (L.filter (keepChar isAlnum)))).filter (keepChar isAlnum)
        = nfc (pyStrip (L.filter (keepChar isAlnum))) :=
      List.filter_eq_self.mpr hkeepN
    have hstripN : pyStrip (nfc (pyStrip (L.filter (keepChar isAlnum))))
        = nfc (pyStrip (L.filter (keepChar isAlnum))) :=
      hStrip _ (pyStrip_idem _)
    have hnfcN : nfc (nfc (pyStrip (L.filter (keepChar isAlnum))))
        = nfc (pyStrip (L.filter (keepChar isAlnum))) := hIdem _
    simp [sanitizeLabel, hfilterN, hstripN, hnfcN, hN]

/-- Witness for C5: the idempotence instance at a concrete label, with
the identity normalizer (which satisfies every hypothesis). -/
theorem sanitizeLabel_idempotent_witness :
    sanitizeLabel id (fun c => c.isAlphanum)
        (sanitizeLabel id (fun c => c.isAlphanum) (" Ab-c! ".data)) =
      sanitizeLabel id (fun c => c.isAlphanum) (" Ab-c! ".data) :=
  sanitizeLabel_idempotent id (fun c => c.isAlphanum)
    (fun _ => rfl) (fun _ h => h) (fun _ h => h) (by decide) (" Ab-c! ".data)

/-- Counterexample for C5 as stated: with the normalizer behaving as
real NFC does on the Devanagari letter QA (U+0958, a composition
exclusion that NFC decomposes into KA U+0915 plus the combining nukta
U+093C, which `str.isalnum` rejects), sanitizing the one-character
label U+0958 yields [U+0915, U+093C], but sanitizing that result again
filters the nukta out, yielding [U+0915]: the program's sanitize is not
idempotent. -/
theorem sanitizeLabel_not_idempotent_at_u0958 :
    sanitizeLabel nfcDevanagari isAlnumDevanagari
        (sanitizeLabel nfcDevanagari isAlnumDevanagari ['\u0958'])
      ≠ sanitizeLabel nfcDevanagari isAlnumDevanagari ['\u0958'] := by
  decide

/-! ### Helper lemmas: the uniqueness counter and `_unique_path` -/

/-- Unfolding of `decRepr` below ten. -/
theorem decRepr_lt {n : Nat} (h : n < 10) : decRepr n = [Nat.digitChar n] := by
  unfold decRepr
  rw [dif_pos h]

/-- Unfolding of `decRepr` at ten and above. -/
theorem decRepr_ge {n : Nat} (h : ¬ n < 10) :
    decRepr n = decRepr (n / 10) ++ [Nat.digitChar (n % 10)] := by
  conv_lhs => rw [decRepr]
  rw [dif_neg h]

/-- The rendering of a number is never empty. -/
theorem decRepr_ne_nil (n : Nat) : decRepr n ≠ [] := by
  by_cases h : n < 10
  · rw [decRepr_lt h]; simp
  · rw [decRepr_ge h]; simp

/-- The digit characters of the ten decimal digits are pairwise
distinct. -/
theorem digitChar_inj_lt : ∀ a b : Fin 10, Nat.digitChar a = Nat.digitChar b → a = b := by
  decide

/-- Decimal rendering is injective. -/
theorem decRepr_inj : ∀ a b : Nat, decRepr a = decRepr b → a = b := by
  intro a
  induction a using Nat.strong_induction_on with
  | _ a ih =>
    intro b h
    by_cases ha : a < 10 <;> by_cases hb : b < 10
    · rw [decRepr_lt ha, decRepr_lt hb] at h
      have := digitChar_inj_lt ⟨a, ha⟩ ⟨b, hb⟩ (by simpa using h)
      simpa using this
    · rw [decRepr_lt ha, decRepr_ge hb] at h
      have hlen := congrArg List.length h
      have hpos : 0 < (decRepr (b / 10)).length := List.length_pos.mpr (decRepr_ne_nil _)
      simp only [List.length_cons, List.length_append, List.length_nil] at hlen
      omega
    · rw [decRepr_ge ha, decRepr_lt hb] at h
      have hlen := congrArg List.length h
      have hpos : 0 < (decRepr (a / 10)).length := List.length_pos.mpr (decRepr_ne_nil _)
      simp only [List.length_cons, List.length_append, List.length_nil] at hlen
      omega
    · rw [decRepr_ge ha, decRepr_ge hb] at h
      have h' := congrArg List.reverse h
      simp only [List.reverse_append, List.reverse_cons, List.reverse_nil,
        List.nil_append, List.singleton_append, List.cons.injEq] at h'
      obtain ⟨hdig, hrest⟩ := h'
      have hmod : a % 10 = b % 10 := by
        have := digitChar_inj_lt ⟨a % 10, Nat.mod_lt _ (by omega)⟩
          ⟨b % 10, Nat.mod_lt _ (by omega)⟩ (by simpa using hdig)
        simpa using this
      have hdiv : a / 10 = b / 10 := by
        apply ih (a / 10) (Nat.div_lt_self (by omega) (by omega))
        have := congrArg List.reverse hrest
        simpa using this
      omega

/-- Distinct counter values give distinct candidate paths. -/
theorem mkCandidate_inj (p : PathV) {n m : Nat} (h : mkCandidate p n = mkCandidate p m) :
    n = m := by
  have hname := congrArg PathV.name h
  simp only [mkCandidate] at hname
  rw [List.append_assoc, List.append_assoc] at hname
  have h2 := List.append_cancel_left hname
  simp only [List.cons_append, List.cons.injEq, true_and] at h2
  exact decRepr_inj _ _ (List.append_cancel_right h2)

/-- Among the first `existing.length + 1` candidates there is one that
is not an existing path. -/
theorem exists_fresh_candidate (existing : List PathV) (p : PathV) :
    ∃ k, k ≤ existing.length ∧ mkCandidate p (1 + k) ∉ existing := by
  by_contra hc
  push_neg at hc
  have hinj : Function.Injective (fun k => mkCandidate p (1 + k)) := by
    intro x y hxy
    have := mkCandidate_inj p hxy
    omega
  have hnodup : ((List.range (existing.length + 1)).map
      (fun k => mkCandidate p (1 + k))).Nodup :=
    List.Nodup.map hinj (List.nodup_range _)
  have hsub : ((List.range (existing.length + 1)).map
      (fun k => mkCandidate p (1 + k))) ⊆ existing := by
    intro x hx
    simp only [List.mem_map, List.mem_range] at hx
    obtain ⟨k, hk, rfl⟩ := hx
    exact hc k (by omega)
  have hle := (List.subperm_of_subset hnodup hsub).length_le
  simp at hle

/-- The search loop returns the first fresh candidate at or after its
starting counter, provided one lies within the fuel. -/
theorem uniquePathAux_spec (existing : List PathV) (p : PathV) :
    ∀ (fuel n : Nat), (∃ k, k < fuel ∧ mkCandidate p (n + k) ∉ existing) →
    ∃ k, k < fuel ∧ uniquePathAux existing p n fuel = mkCandidate p (n + k) ∧
      mkCandidate p (n + k) ∉ existing ∧ ∀ j, j < k → mkCandidate p (n + j) ∈ existing := by
  intro fuel
  induction fuel with
  | zero =>
    rintro n ⟨k, hk, -⟩
    omega
  | succ fuel ih =>
    rintro n ⟨k, hk, hfree⟩
    by_cases hmem : mkCandidate p n ∈ existing
    · have hk0 : k ≠ 0 := by
        rintro rfl
        rw [Nat.add_zero] at hfree
        exact hfree hmem
      obtain ⟨k', rfl⟩ : ∃ k', k = k' + 1 := ⟨k - 1, by omega⟩
      have hfree' : mkCandidate p ((n + 1) + k') ∉ existing := by
        rw [show (n + 1) + k' = n + (k' + 1) by omega]
        exact hfree
      obtain ⟨k'', hk'', heq, hfree'', hmin⟩ := ih (n + 1) ⟨k', by omega, hfree'⟩
      refine ⟨k'' + 1, by omega, ?_, ?_, ?_⟩
      · rw [show uniquePathAux existing p n (fuel + 1)
            = uniquePathAux existing p (n + 1) fuel by simp [uniquePathAux, hmem]]
        rw [heq]
        rw [show (n + 1) + k'' = n + (k'' + 1) by omega]
      · rw [show n + (k'' + 1) = (n + 1) + k'' by omega]
        exact hfree''
      · intro j hj
        cases j with
        | zero => simpa using hmem
        | succ j' =>
          rw [show n + (j' + 1) = (n + 1) + j' by omega]
          exact hmin j' (by omega)
    · refine ⟨0, by omega, by simp [uniquePathAux, hmem], by simpa using hmem, ?_⟩
      intro j hj
      omega

/-- The path returned by `_unique_path` never names an existing file. -/
theorem uniquePath_fresh (existing : List PathV) (p : PathV) :
    uniquePath existing p ∉ existing := by
  unfold uniquePath
  by_cases hp : p ∈ existing
  · rw [if_pos hp]
    obtain ⟨k, hk, hfree⟩ := exists_fresh_candidate existing p
    obtain ⟨k', -, heq, hfree', -⟩ := uniquePathAux_spec existing p
      (existing.length + 1) 1 ⟨k, by omega, hfree⟩
    rw [heq]
    exact hfree'
  · rw [if_neg hp]
    exact hp

/-! ### Claim C4 -/

/-- Claim C4: the uniqueness resolver returns `p` itself when `p` does
not exist, and otherwise the name with suffix " (n)" inserted before the
extension for the smallest n at least 1 whose candidate does not exist;
the returned path never coincides with an existing file (so nothing is
overwritten), and the result is a function of the existing-file set
(deterministic). -/
theorem unique_path_spec (existing : List PathV) (p : PathV) :
    uniquePath existing p ∉ existing ∧
    (p ∉ existing → uniquePath existing p = p) ∧
    (p ∈ existing → ∃ n, 1 ≤ n ∧ uniquePath existing p = mkCandidate p n ∧
      mkCandidate p n ∉ existing ∧
      ∀ m, 1 ≤ m → m < n → mkCandidate p m ∈ existing) := by
  refine ⟨uniquePath_fresh existing p, fun hp => by simp [uniquePath, hp], fun hp => ?_⟩
  obtain ⟨k, hk, hfree⟩ := exists_fresh_candidate existing p
  obtain ⟨k', hk', heq, hfree', hmin⟩ := uniquePathAux_spec existing p
    (existing.length + 1) 1 ⟨k, by omega, hfree⟩
  refine ⟨1 + k', by omega, ?_, hfree', ?_⟩
  · rw [uniquePath, if_pos hp]
    exact heq
  · intro m h1 hm
    rw [show m = 1 + (m - 1) by omega]
    exact hmin (m - 1) (by omega)

/-- Witness for C4: freshness at a one-file set containing the candidate
path itself, and identity on a path that does not exist. -/
theorem unique_path_spec_witness :
    uniquePath [PathV.mk [] ("a.epub".data)] (PathV.mk [] ("a.epub".data))
        ∉ [PathV.mk [] ("a.epub".data)] ∧
      uniquePath [] (PathV.mk [] ("a.epub".data)) = PathV.mk [] ("a.epub".data) :=
  ⟨(unique_path_spec [PathV.mk [] ("a.epub".data)] (PathV.mk [] ("a.epub".data))).1,
    (unique_path_spec [] (PathV.mk [] ("a.epub".data))).2.1 (by simp)⟩

/-! ### Helper lemmas: the filesystem model -/

/-- The entry Python's `max` picks is one of the candidates. -/
theorem pickLatest_mem (e : DirEntry) (es : List DirEntry) : pickLatest e es ∈ e :: es := by
  induction es generalizing e with
  | nil => simp [pickLatest]
  | cons x xs ih =>
    have hstep : pickLatest e (x :: xs)
        = pickLatest (if e.mtime < x.mtime then x else e) xs := rfl
    rw [hstep]
    rcases List.mem_cons.mp (ih (if e.mtime < x.mtime then x else e)) with heq | hmem
    · rw [heq]
      by_cases hc : e.mtime < x.mtime <;> simp [hc]
    · simp [hmem]

/-- Membership in the new-target-extension candidates. -/
theorem mem_newEpubs {listing : List DirEntry} {before : List (List Char)} {e : DirEntry} :
    e ∈ newEpubs listing before ↔
      e ∈ listing ∧ e.name ∉ before ∧ isEpubEntry e = true := by
  simp only [newEpubs, List.mem_filter, and_assoc, decide_eq_true_eq]

/-! ### Claim C3 -/

/-- Claim C3: the completion poller returns none when, throughout the
window, no sample shows a new target-extension file together with an
in-progress-marker-free listing; and it returns a path only when some
sample shows a new target-extension file, no listed file carries the
in-progress suffix, and that file's size is observed unchanged across
two consecutive samples with the file still existing. -/
theorem wait_for_download_spec (trace : Nat → List DirEntry) (before : List (List Char)) :
    (∀ t0 fuel, (∀ u, ¬ readyAt trace before u) →
      waitForDownload trace before t0 fuel = none) ∧
    (∀ t0 fuel nm, waitForDownload trace before t0 fuel = some nm →
      ∃ t e s, e ∈ trace t ∧ e.name = nm ∧ e.name ∉ before ∧ isEpubEntry e = true ∧
        (trace t).any isCrdownloadEntry = false ∧
        statAt (trace t) nm = some s ∧ statAt (trace (t + 1)) nm = some s) := by
  constructor
  · intro t0 fuel
    induction fuel generalizing t0 with
    | zero => intro _; rfl
    | succ fuel ih =>
      intro h
      cases hE : newEpubs (trace t0) before with
      | nil =>
        simp only [waitForDownload, hE]
        exact ih (t0 + 1) h
      | cons e es =>
        cases hT : (trace t0).any isCrdownloadEntry with
        | true =>
          simp only [waitForDownload, hE, hT]
          exact ih (t0 + 1) h
        | false =>
          exact absurd (And.intro (by rw [hE]; simp) hT) (h t0)
  · intro t0 fuel
    induction fuel generalizing t0 with
    | zero =>
      intro nm h
      simp [waitForDownload] at h
    | succ fuel ih =>
      intro nm h
      cases hE : newEpubs (trace t0) before with
      | nil =>
        simp only [waitForDownload, hE] at h
        exact ih (t0 + 1) nm h
      | cons e es =>
        cases hT : (trace t0).any isCrdownloadEntry with
        | true =>
          simp only [waitForDownload, hE, hT] at h
          exact ih (t0 + 1) nm h
        | false =>
          simp only [waitForDownload, hE, hT] at h
          split at h
          · exact ih (t0 + 1) nm h
          · rename_i size1 hS
            split at h
            · rename_i s2 hS2
              split at h
              · rename_i heq
                injection h with hname
                have hmem := pickLatest_mem e es
                rw [← hE] at hmem
                obtain ⟨hin, hnb, hepub⟩ := mem_newEpubs.mp hmem
                refine ⟨t0, pickLatest e es, size1, hin, hname, hnb, hepub, hT, ?_, ?_⟩
                · rw [← hname]
                  exact hS
                · rw [← hname, hS2, heq]
              · exact ih (t0 + 2) nm h
            · exact ih (t0 + 2) nm h

/-- Witness for C3: the poller times out over a trace that never shows a
download, and completes over a trace with one stable new target file,
exhibiting the sample the theorem asserts. -/
theorem wait_for_download_spec_witness :
    waitForDownload (fun _ => []) [] 0 3 = none ∧
    (∃ t e s, e ∈ (fun _ : Nat => [DirEntry.mk ("a.epub".data) 5 0]) t ∧
      e.name = "a.epub".data ∧ e.name ∉ ([] : List (List Char)) ∧ isEpubEntry e = true ∧
      ((fun _ : Nat => [DirEntry.mk ("a.epub".data) 5 0]) t).any isCrdownloadEntry = false ∧
      statAt ((fun _ : Nat => [DirEntry.mk ("a.epub".data) 5 0]) t) ("a.epub".data) = some s ∧
      statAt ((fun _ : Nat => [DirEntry.mk ("a.epub".data) 5 0]) (t + 1)) ("a.epub".data)
        = some s) :=
  ⟨(wait_for_download_spec (fun _ => []) []).1 0 3
      (fun u => by simp [readyAt, newEpubs]),
    (wait_for_download_spec (fun _ => [DirEntry.mk ("a.epub".data) 5 0]) []).2 0 1
      ("a.epub".data) (by decide)⟩

/-! ### Helper lemmas: the run coordinator -/

/-- Characterization of the document loop: the invocation log lists
exactly the nonempty-topic documents with their first topic, and the two
counters count the corresponding outcomes. -/
theorem scrapeLoop_spec (download : List Char → List Char → Option PathV) :
    ∀ items : List (List Char × List (List Char)),
    (scrapeLoop download items).2 = items.filterMap (fun it =>
      match it.2 with | [] => none | s :: _ => some (it.1, s)) ∧
    (scrapeLoop download items).1.1 = items.countP (fun it =>
      match it.2 with | [] => false | s :: _ => (download it.1 s).isSome) ∧
    (scrapeLoop download items).1.2 = items.countP (fun it =>
      match it.2 with | [] => true | s :: _ => (download it.1 s).isNone) := by
  intro items
  induction items with
  | nil => exact ⟨rfl, rfl, rfl⟩
  | cons it rest ih =>
    obtain ⟨url, subs⟩ := it
    obtain ⟨hlog, hsucc, hfail⟩ := ih
    cases subs with
    | nil =>
      simp [scrapeLoop, List.filterMap_cons, List.countP_cons, hlog, hsucc, hfail]
    | cons primary more =>
      cases hdl : download url primary with
      | some v =>
        simp [scrapeLoop, hdl, List.filterMap_cons, List.countP_cons, hlog, hsucc, hfail]
      | none =>
        simp [scrapeLoop, hdl, List.filterMap_cons, List.countP_cons, hlog, hsucc, hfail]

/-- Every document contributes to exactly one of the two counters. -/
theorem scrapeLoop_total (download : List Char → List Char → Option PathV) :
    ∀ items : List (List Char × List (List Char)),
    (scrapeLoop download items).1.1 + (scrapeLoop download items).1.2 = items.length := by
  intro items
  induction items with
  | nil => rfl
  | cons it rest ih =>
    obtain ⟨url, subs⟩ := it
    cases subs with
    | nil =>
      simp only [scrapeLoop, List.length_cons]
      omega
    | cons primary more =>
      cases hdl : download url primary with
      | some v =>
        simp only [scrapeLoop, hdl, List.length_cons]
        omega
      | none =>
        simp only [scrapeLoop, hdl, List.length_cons]
        omega

/-! ### Claims C7 and C8 -/

/-- Claim C7: the run coordinator never invokes the per-document
orchestrator for a document with an empty topic list (the invocation log
is exactly the nonempty-topic documents, in order, each with its first
topic), and every empty-topic document is counted as failed (the failed
counter counts exactly the empty-topic documents together with the
failed downloads). -/
theorem scrape_all_skips_empty (download : List Char → List Char → Option PathV)
    (items : List (List Char × List (List Char))) :
    (scrapeAllStats download items).2 = items.filterMap (fun it =>
      match it.2 with | [] => none | s :: _ => some (it.1, s)) ∧
    (scrapeAllStats download items).1.failed = items.countP (fun it =>
      match it.2 with | [] => true | s :: _ => (download it.1 s).isNone) :=
  ⟨(scrapeLoop_spec download items).1, (scrapeLoop_spec download items).2.2⟩

/-- Claim C8: after the coordinator completes, total equals the number
of collected documents and success + failed = total; every document
yields exactly one terminal-outcome increment and processing always
reaches the end of the list. -/
theorem scrape_all_stats_conservation (download : List Char → List Char → Option PathV)
    (items : List (List Char × List (List Char))) :
    (scrapeAllStats download items).1.total = items.length ∧
    (scrapeAllStats download items).1.success + (scrapeAllStats download items).1.failed
      = (scrapeAllStats download items).1.total :=
  ⟨rfl, scrapeLoop_total download items⟩

/-! ### Helper lemmas: first-occurrence deduplication -/

/-- Unfolding of `dedupFirst` at nil. -/
theorem dedupFirst_nil {α : Type} [DecidableEq α] : dedupFirst ([] : List α) = [] := by
  rw [dedupFirst]

/-- Unfolding of `dedupFirst` at cons. -/
theorem dedupFirst_cons {α : Type} [DecidableEq α] (x : α) (xs : List α) :
    dedupFirst (x :: xs) = x :: dedupFirst (xs.filter (fun y => decide (y ≠ x))) := by
  rw [dedupFirst]

/-- Deduplication preserves membership. -/
theorem mem_dedupFirst {α : Type} [DecidableEq α] (a : α) (xs : List α) :
    a ∈ dedupFirst xs ↔ a ∈ xs := by
  have H : ∀ (n : Nat) (ys : List α), ys.length ≤ n → (a ∈ dedupFirst ys ↔ a ∈ ys) := by
    intro n
    induction n with
    | zero =>
      intro ys hlen
      obtain rfl : ys = [] := List.length_eq_zero.mp (by omega)
      simp [dedupFirst_nil]
    | succ n ih =>
      intro ys hlen
      cases ys with
      | nil => simp [dedupFirst_nil]
      | cons x t =>
        rw [dedupFirst_cons, List.mem_cons, List.mem_cons]
        by_cases hax : a = x
        · simp [hax]
        · simp only [hax, false_or]
          rw [ih (t.filter (fun y => decide (y ≠ x)))
            (by simp only [List.length_cons] at hlen
                exact le_trans (List.length_filter_le _ _) (by omega))]
          simp [List.mem_filter, hax]
  exact H xs.length xs le_rfl

/-- The deduplicated list has no duplicates. -/
theorem dedupFirst_nodup {α : Type} [DecidableEq α] (xs : List α) :
    (dedupFirst xs).Nodup := by
  have H : ∀ (n : Nat) (ys : List α), ys.length ≤ n → (dedupFirst ys).Nodup := by
    intro n
    induction n with
    | zero =>
      intro ys hlen
      obtain rfl : ys = [] := List.length_eq_zero.mp (by omega)
      simp [dedupFirst_nil]
    | succ n ih =>
      intro ys hlen
      cases ys with
      | nil => simp [dedupFirst_nil]
      | cons x t =>
        rw [dedupFirst_cons]
        refine List.nodup_cons.mpr ⟨?_, ih _ ?_⟩
        · rw [mem_dedupFirst]
          simp [List.mem_filter]
        · simp only [List.length_cons] at hlen
          exact le_trans (List.length_filter_le _ _) (by omega)
  exact H xs.length xs le_rfl

/-- Deduplication of a one-element list. -/
theorem dedupFirst_singleton {α : Type} [DecidableEq α] (a : α) :
    dedupFirst [a] = [a] := by
  rw [dedupFirst_cons]
  simp [dedupFirst_nil]

/-- How deduplication treats one appended element: dropped when already
seen, kept at the end otherwise. -/
theorem dedupFirst_append_singleton {α : Type} [DecidableEq α] (y : α) (xs : List α) :
    dedupFirst (xs ++ [y]) = dedupFirst xs ++ (if y ∈ xs then [] else [y]) := by
  have H : ∀ (n : Nat) (ys : List α), ys.length ≤ n →
      dedupFirst (ys ++ [y]) = dedupFirst ys ++ (if y ∈ ys then [] else [y]) := by
    intro n
    induction n with
    | zero =>
      intro ys hlen
      obtain rfl : ys = [] := List.length_eq_zero.mp (by omega)
      simp [dedupFirst_nil, dedupFirst_singleton]
    | succ n ih =>
      intro ys hlen
      cases ys with
      | nil => simp [dedupFirst_nil, dedupFirst_singleton]
      | cons x t =>
        rw [List.cons_append, dedupFirst_cons, dedupFirst_cons, List.filter_append]
        by_cases hyx : y = x
        · have hdrop : List.filter (fun z => decide (z ≠ x)) [y] = [] := by simp [hyx]
          rw [hdrop, List.append_nil, if_pos (by simp [hyx])]
          simp
        · have hkeep : List.filter (fun z => decide (z ≠ x)) [y] = [y] := by simp [hyx]
          rw [hkeep,
            ih (t.filter (fun z => decide (z ≠ x)))
              (by simp only [List.length_cons] at hlen
                  exact le_trans (List.length_filter_le _ _) (by omega))]
          have hmemiff : (y ∈ t.filter (fun z => decide (z ≠ x))) ↔ y ∈ t := by
            simp [List.mem_filter, hyx]
          by_cases hyt : y ∈ t
          · rw [if_pos (hmemiff.mpr hyt), if_pos (by simp [hyt])]
            simp
          · rw [if_neg (fun hc => hyt (hmemiff.mp hc)),
              if_neg (by simp [hyx, hyt])]
            simp
  exact H xs.length xs le_rfl

/-! ### Helper lemmas: the link-collection fold -/

/-- How one appended observation changes a url's label stream. -/
theorem labelsFor_append_singleton (ps : List (List Char × List Char))
    (l u k : List Char) :
    labelsFor (ps ++ [(l, u)]) k = labelsFor ps k ++ (if u = k then [l] else []) := by
  by_cases huk : u = k
  · simp [labelsFor, List.filter_append, List.filter_cons, huk]
  · simp [labelsFor, List.filter_append, List.filter_cons, huk]

/-- A url that never occurs has an empty label stream. -/
theorem labelsFor_eq_nil {ps : List (List Char × List Char)} {u : List Char}
    (h : u ∉ ps.map Prod.snd) : labelsFor ps u = [] := by
  have hfil : List.filter (fun pr => decide (pr.2 = u)) ps = [] := by
    rw [List.filter_eq_nil_iff]
    intro pr hpr hc
    simp only [decide_eq_true_eq] at hc
    exact h (List.mem_map.mpr ⟨pr, hpr, hc⟩)
  simp [labelsFor, hfil]

/-- Recording a fresh url appends it at the end with its one label. -/
theorem addLink_not_mem {acc : List (List Char × List (List Char))} {url : List Char}
    (h : url ∉ acc.map Prod.fst) (sub : List Char) :
    addLink acc url sub = acc ++ [(url, [sub])] := by
  induction acc with
  | nil => rfl
  | cons e rest ih =>
    obtain ⟨u, subs⟩ := e
    simp only [List.map_cons, List.mem_cons, not_or] at h
    simp only [addLink, if_neg (Ne.symm h.1)]
    rw [ih h.2]
    rfl

/-- Recording a known url updates exactly its entry, appending the label
unless already present. -/
theorem addLink_map (ks : List (List Char)) (g : List Char → List (List Char))
    (u l : List Char) :
    ∀ (_ : u ∈ ks) (_ : ks.Nodup),
    addLink (ks.map (fun k => (k, g k))) u l
      = ks.map (fun k => (k, if k = u then (if l ∈ g u then g u else g u ++ [l]) else g k)) := by
  induction ks with
  | nil =>
    intro hmem _
    cases hmem
  | cons k kt ih =>
    intro hmem hnd
    simp only [List.map_cons, addLink]
    by_cases hk : k = u
    · subst hk
      rw [if_pos rfl]
      have hknotin : k ∉ kt := (List.nodup_cons.mp hnd).1
      congr 1
      · simp
      · apply List.map_congr_left
        intro k' hk'
        have hne : k' ≠ k := fun hc => hknotin (hc ▸ hk')
        simp [hne]
    · rw [if_neg hk]
      have hmem' : u ∈ kt := by
        rcases List.mem_cons.mp hmem with h1 | h2
        · exact absurd h1.symm hk
        · exact h2
      rw [ih hmem' (List.nodup_cons.mp hnd).2]
      congr 1
      simp [hk]

/-- The fold distributes over appended observation streams. -/
theorem collectPairs_append (ps qs : List (List Char × List Char)) :
    ∀ acc, collectPairs acc (ps ++ qs) = collectPairs (collectPairs acc ps) qs := by
  induction ps with
  | nil => intro acc; rfl
  | cons p pt ih =>
    intro acc
    obtain ⟨l, u⟩ := p
    simp only [List.cons_append, collectPairs]
    exact ih (addLink acc u l)

/-- The collection fold computes exactly the spec-side view: urls in
first-seen order, each once, with its distinct labels in appearance
order. -/
theorem collectPairs_spec : ∀ ps : List (List Char × List Char),
    collectPairs [] ps = specCollect ps := by
  intro ps
  induction ps using List.reverseRecOn with
  | nil => simp [collectPairs, specCollect, dedupFirst_nil]
  | append_singleton ps p ih =>
    obtain ⟨l, u⟩ := p
    rw [collectPairs_append]
    show addLink (collectPairs [] ps) u l = _
    rw [ih]
    by_cases hu : u ∈ ps.map Prod.snd
    · have hkeys : dedupFirst ((ps ++ [(l, u)]).map Prod.snd)
          = dedupFirst (ps.map Prod.snd) := by
        rw [List.map_append]
        show dedupFirst (ps.map Prod.snd ++ [u]) = _
        rw [dedupFirst_append_singleton, if_pos hu, List.append_nil]
      rw [show specCollect ps
          = (dedupFirst (ps.map Prod.snd)).map
              (fun k => (k, dedupFirst (labelsFor ps k))) from rfl]
      rw [addLink_map (dedupFirst (ps.map Prod.snd))
        (fun k => dedupFirst (labelsFor ps k)) u l
        ((mem_dedupFirst u _).mpr hu) (dedupFirst_nodup _)]
      simp only [specCollect]
      rw [hkeys]
      apply List.map_congr_left
      intro k hk
      by_cases hku : k = u
      · subst hku
        rw [if_pos rfl, labelsFor_append_singleton, if_pos rfl,
          dedupFirst_append_singleton]
        by_cases hl : l ∈ labelsFor ps k
        · rw [if_pos ((mem_dedupFirst l _).mpr hl), if_pos hl, List.append_nil]
        · rw [if_neg (fun hc => hl ((mem_dedupFirst l _).mp hc)), if_neg hl]
      · rw [if_neg hku, labelsFor_append_singleton,
          if_neg (fun hc => hku hc.symm), List.append_nil]
    · have hnotin : u ∉ (specCollect ps).map Prod.fst := by
        simp only [specCollect, List.map_map]
        rw [show (Prod.fst ∘ fun k => (k, dedupFirst (labelsFor ps k))) = id from rfl,
          List.map_id]
        exact fun hc => hu ((mem_dedupFirst u _).mp hc)
      rw [addLink_not_mem hnotin l]
      simp only [specCollect]
      rw [List.map_append]
      rw [show ([(l, u)].map Prod.snd) = [u] from rfl]
      rw [dedupFirst_append_singleton, if_neg hu, List.map_append]
      congr 1
      · apply List.map_congr_left
        intro k hk
        have hku : k ≠ u := fun hc => hu (hc ▸ (mem_dedupFirst k _).mp hk)
        rw [labelsFor_append_singleton, if_neg (fun hc => hku hc.symm), List.append_nil]
      · simp only [List.map_cons, List.map_nil]
        rw [labelsFor_append_singleton, if_pos rfl, labelsFor_eq_nil hu,
          List.nil_append, dedupFirst_singleton]

/-- The anchor loop is the fold over its observation stream. -/
theorem collectAnchors_eq (joinUrl : List Char → List Char) (sub : List Char) :
    ∀ (anchors : List (Option (List Char))) (acc : List (List Char × List (List Char))),
    collectAnchors joinUrl acc sub anchors = collectPairs acc (anchorPairs joinUrl sub anchors) := by
  intro anchors
  induction anchors with
  | nil => intro acc; rfl
  | cons h rest ih =>
    intro acc
    cases h with
    | none => simpa [collectAnchors, anchorPairs] using ih acc
    | some hr =>
      by_cases he : hr = []
      · simp only [collectAnchors, anchorPairs, he, if_pos rfl]
        exact ih acc
      · simp only [collectAnchors, anchorPairs, if_neg he]
        exact ih (addLink acc (joinUrl hr) sub)

/-- The section loop is the fold over the whole observation stream. -/
theorem collectTextLinks_toPairs (joinUrl : List Char → List Char) :
    ∀ (sections : List PageSection) (acc : List (List Char × List (List Char))),
    sections.foldl (fun a d => collectAnchors joinUrl a (pyStrip d.summary) d.anchors) acc
      = collectPairs acc (sectionPairs joinUrl sections) := by
  intro sections
  induction sections with
  | nil => intro acc; rfl
  | cons d ds ih =>
    intro acc
    simp only [List.foldl_cons, sectionPairs, List.map_cons, List.flatten_cons]
    rw [collectAnchors_eq, ih, ← collectPairs_append]
    rfl

/-! ### Claim C6 -/

/-- Claim C6: link collection returns the urls in first-seen order, each
exactly once, paired with its distinct section labels in appearance
order (formalized by the correspondence with `specCollect`), yields the
empty list when no sections or links exist, and on the two-section
scenario ("Dedications" containing A; "Aspirations" containing A and B)
yields [(A, [Dedications, Aspirations]), (B, [Aspirations])]. -/
theorem collect_text_links_spec :
    (∀ (joinUrl : List Char → List Char) (sections : List PageSection),
      collectTextLinks joinUrl sections = specCollect (sectionPairs joinUrl sections)) ∧
    (∀ (joinUrl : List Char → List Char) (sections : List PageSection),
      ((collectTextLinks joinUrl sections).map Prod.fst).Nodup ∧
      ∀ e ∈ collectTextLinks joinUrl sections, e.2.Nodup) ∧
    (∀ joinUrl : List Char → List Char, collectTextLinks joinUrl [] = []) ∧
    collectTextLinks id
        [{ summary := "Dedications".data, anchors := [some ("A".data)] },
         { summary := "Aspirations".data, anchors := [some ("A".data), some ("B".data)] }]
      = [("A".data, ["Dedications".data, "Aspirations".data]),
         ("B".data, ["Aspirations".data])] := by
  have hmain : ∀ (joinUrl : List Char → List Char) (sections : List PageSection),
      collectTextLinks joinUrl sections = specCollect (sectionPairs joinUrl sections) := by
    intro joinUrl sections
    unfold collectTextLinks
    rw [collectTextLinks_toPairs joinUrl sections [], collectPairs_spec]
  refine ⟨hmain, ?_, fun _ => rfl, by decide⟩
  intro joinUrl sections
  rw [hmain joinUrl sections]
  constructor
  · simp only [specCollect, List.map_map]
    rw [show (Prod.fst ∘ fun u =>
        (u, dedupFirst (labelsFor (sectionPairs joinUrl sections) u))) = id from rfl,
      List.map_id]
    exact dedupFirst_nodup _
  · intro e he
    simp only [specCollect, List.mem_map] at he
    obtain ⟨u, -, rfl⟩ := he
    exact dedupFirst_nodup _

/-- Witness for C6: the label list collected for document A in the
two-section scenario is duplicate-free. -/
theorem collect_text_links_spec_witness :
    (["Dedications".data, "Aspirations".data] : List (List Char)).Nodup :=
  (collect_text_links_spec.2.1 id
    [{ summary := "Dedications".data, anchors := [some ("A".data)] },
     { summary := "Aspirations".data, anchors := [some ("A".data), some ("B".data)] }]).2
    ("A".data, ["Dedications".data, "Aspirations".data]) (by decide)
